import Mathlib

/-!
Shallow embedding of the adaptive-colors color-scale / contrast engine.

Numbers are embedded as exact rationals (`ℚ`) wherever the JavaScript source
only performs field arithmetic and comparisons; `Math.hypot` and the
arc-length-derived table size live in `ℝ`.
External collaborators (the chroma color library, the perceptual color-space
conversions) are abstracted as parameters, as the spec directs: the scale
function, the per-color contrast probe and the CIE-appearance lightness of a
key color appear as inputs rather than re-derived formulas.
-/

/-- JS `Math.round`: rounds half toward positive infinity. -/
def js_round (q : ℚ) : ℤ := ⌊q + 1 / 2⌋

/-- `round(n, d)` from `math/math.js`: `Math.round(n * 10 ** d) / 10 ** d`. -/
def js_round_to (d : ℕ) (n : ℚ) : ℚ := (js_round (n * 10 ^ d) : ℚ) / 10 ^ d

/-- JS `Math.sign` (on non-NaN input). -/
def js_sign (q : ℚ) : ℚ := if 0 < q then 1 else if q < 0 then -1 else 0

/-- `range(n)` from `utils/iter.js`; `Array.from` clamps a negative length to 0. -/
def js_range (n : ℤ) : List ℤ := (List.range n.toNat).map (fun i => (i : ℤ))

/-- JS `Math.min(...l)` (`min` in `math/math.js`); `none` stands for the
`Infinity` that JS returns on an empty argument list. -/
def js_min : List ℚ → Option ℚ
  | [] => none
  | x :: xs =>
    match js_min xs with
    | none => some x
    | some m => some (min x m)

/-- `Array.prototype.indexOf`: first index of `x`, or `-1` when absent. -/
def js_index_of (l : List ℚ) (x : ℚ) : ℤ :=
  match l.indexOf? x with
  | some i => (i : ℤ)
  | none => -1

/-- The two contrast algorithms of `contrast.js`. -/
inductive ContrastAlgorithm where
  | wcag2
  | wcag3
deriving DecidableEq

/-- The `MIN_RATIO` table of `contrast.js`. Note the source maps `wcag2` to 0
and `wcag3` to 1. -/
def min_ratio : ContrastAlgorithm → ℚ
  | .wcag2 => 0
  | .wcag3 => 1

/-- `is_positive_ratio(algorithm)` from `contrast.js`: `r => r >= m` with
`m = MIN_RATIO[algorithm]`. -/
def is_positive_ratio (a : ContrastAlgorithm) : ℚ → Bool :=
  fun r => decide (min_ratio a ≤ r)

/-- `multiply_contrast_ratio(ratio, multiplier)` from `contrast.js`. -/
def multiply_contrast_ratio (ratio multiplier : ℚ) : ℚ :=
  js_round_to 2
    (if 1 < ratio then (ratio - 1) * multiplier + 1
      else if ratio < -1 then (ratio + 1) * multiplier - 1
      else 1)

/-- `min_positive_ratio(ratios, algorithm)` from `contrast.js`:
`min(ratios.filter(is_positive_ratio(algorithm)))`. -/
def min_positive_ratio (ratios : List ℚ) (a : ContrastAlgorithm) : Option ℚ :=
  js_min (ratios.filter (fun r => is_positive_ratio a r))

/-- `ratio_names(ratios, algorithm)` from `contrast.js`. The JS `sort(numeric)`
is an ascending stable sort, embedded as `insertionSort`. -/
def ratio_names (ratios : List ℚ) (a : ContrastAlgorithm) : List String :=
  let sorted := ratios.insertionSort (fun x y => x ≤ y)
  let m := min_positive_ratio sorted a
  let min_i : ℤ :=
    match m with
    | some v => js_index_of sorted v
    | none => -1
  let n_neg := min_i
  let n_pos : ℤ := (sorted.length : ℤ) - n_neg
  let d : ℚ := 1 / ((n_neg : ℚ) + 1)
  let mm : ℚ := d * 100
  let names :=
    ((js_range n_neg).map (fun i => js_round (mm * ((i : ℚ) + 1)))
        ++ (js_range n_pos).map (fun i => (i + 1) * 100)).insertionSort
      (fun x y => x ≤ y)
  names.map (fun z => toString z)

/-- A 2D control point (`math/point.js`). -/
abbrev Point := ℚ × ℚ

/-- `neg` from `point.js`. -/
def pneg (p : Point) : Point := (-p.1, -p.2)

/-- `add(...ps)` from `point.js`: fold of componentwise addition from (0,0). -/
def padd (ps : List Point) : Point :=
  ps.foldl (fun a c => (a.1 + c.1, a.2 + c.2)) (0, 0)

/-- `mul(n, p)` from `point.js`. -/
def pmul (n : ℚ) (p : Point) : Point := (n * p.1, n * p.2)

/-- `div(p, n)` from `point.js`. -/
def pdiv (p : Point) (n : ℚ) : Point := (p.1 / n, p.2 / n)

/-- `dist(a, b)` from `point.js`: `Math.hypot(x1 - x0, y1 - y0)` (renamed,
`dist` is taken by Mathlib). -/
noncomputable def point_dist (a b : Point) : ℝ :=
  Real.sqrt (((b.1 - a.1 : ℚ) : ℝ) ^ 2 + ((b.2 - a.2 : ℚ) : ℝ) ^ 2)

/-- A cubic Bézier segment `[p0, p1, p2, p3]` (`math/curve.js`). -/
abbrev CubicBezier := Point × Point × Point × Point

/-- The Bézier segment a Catmull-Rom window `v1 v2 v3 v4` is converted to in
`catmull_to_bezier`: `p0 = v2`, `p1 = (-v1 + 6 v2 + v3)/6`,
`p2 = (-v4 + 6 v3 + v2)/6`, `p3 = v3`. -/
def catmull_segment (v1 v2 v3 v4 : Point) : CubicBezier :=
  (v2, pdiv (padd [pneg v1, pmul 6 v2, v3]) 6,
    pdiv (padd [pneg v4, pmul 6 v3, v2]) 6, v3)

/-- `catmull_to_bezier(cps)` from `math/curve.js`. `cps[Math.max(i - 1, 0)]`
is `cps.getD (i - 1)` thanks to truncated ℕ subtraction; the in-range indexed
accesses use `getD` with a default that is never reached under the guards. -/
def catmull_to_bezier (cps : List Point) : List CubicBezier :=
  let n := cps.length
  (List.range (n - 1)).map fun i =>
    let v1 := cps.getD (i - 1) (0, 0)
    let v2 := cps.getD i (0, 0)
    let v3 := if i < n - 1 then cps.getD (i + 1) (0, 0) else padd [v2, v2, pneg v1]
    let v4 := if i < n - 2 then cps.getD (i + 2) (0, 0) else padd [v3, v3, pneg v2]
    catmull_segment v1 v2 v3 v4

/-- Reference shape for `catmull_to_bezier`: the Catmull-Rom-to-Bézier
conversion applied to an explicitly padded control-point list, one segment per
window of four consecutive points. -/
def catmull_from_padded (q : List Point) : List CubicBezier :=
  (List.range (q.length - 3)).map fun i =>
    catmull_segment (q.getD i (0, 0)) (q.getD (i + 1) (0, 0))
      (q.getD (i + 2) (0, 0)) (q.getD (i + 3) (0, 0))

/-- The linearly extrapolated end phantom `v = last + last - second_last`
(the `add(v3, v3, neg(v2))` construction of the source, applied at the tail
of the control-point list). -/
def end_extrapolation : List Point → Point
  | [] => (0, 0)
  | [_] => (0, 0)
  | [a, b] => padd [b, b, pneg a]
  | _ :: b :: c :: rest => end_extrapolation (b :: c :: rest)

/-- Modelled from the spec's words, for comparison with the source: the claim
says phantom points are generated by linear extrapolation
(`v0 = v1 - (v2 - v1)` style) at BOTH ends of the control-point list. -/
def catmull_to_bezier_claimed (cps : List Point) : List CubicBezier :=
  match cps with
  | p :: q :: _ => catmull_from_padded (padd [p, p, pneg q] :: cps ++ [end_extrapolation cps])
  | _ => []

/-- `point_at(curve, t)` from `math/curve.js`. -/
def point_at (curve : CubicBezier) (t : ℚ) : Point :=
  let t_2 := t * t
  let t_3 := t_2 * t
  let t1 := 1 - t
  let t1_2 := t1 * t1
  let t1_3 := t1_2 * t1
  padd [pmul t1_3 curve.1, pmul (3 * t1_2 * t) curve.2.1,
    pmul (3 * t1 * t_2) curve.2.2.1, pmul t_3 curve.2.2.2]

/-- The polyline sample points walked by `approximate_bezier_len`: the start
point `curve[0]`, then `point_at(curve, i / steps)` for `i = 1 .. steps - 1`,
then the raw end point `curve[3]`. -/
def bezier_samples (curve : CubicBezier) (steps : ℕ) : List Point :=
  curve.1
    :: ((List.range (steps - 1)).map fun k => point_at curve (((k : ℚ) + 1) / (steps : ℚ)))
    ++ [curve.2.2.2]

/-- Total Euclidean length of a polyline. -/
noncomputable def polyline_len : List Point → ℝ
  | a :: b :: rest => point_dist a b + polyline_len (b :: rest)
  | _ => 0

/-- `approximate_bezier_len(curve, steps = 10)` from `math/curve.js`. -/
noncomputable def approximate_bezier_len (curve : CubicBezier) (steps : ℕ) : ℝ :=
  polyline_len (bezier_samples curve steps)

/-- The lookup-table size of `prepare_curve`:
`Math.floor(approximate_bezier_len(curve) * .75)`. The length estimate is a
sum of square roots, hence nonnegative, so `Nat.floor` agrees with JS
`Math.floor`. -/
noncomputable def table_len (curve : CubicBezier) : ℕ :=
  ⌊approximate_bezier_len curve 10 * (3 / 4)⌋₊

/-- The lookup table of `prepare_curve`: a dense array of `number | null`
entries, modelled as a list of optional rationals. -/
abbrev LookupTable := List (Option ℚ)

/-- JS-indexed read on the lookup array: out-of-range reads give `undefined`
in JS; within the theorems below all indices are kept in range, where the
entry itself (`none` = JS `null`) is returned. -/
def aget (a : LookupTable) (i : ℤ) : Option ℚ :=
  if 0 ≤ i then a.getD i.toNat none else none

/-- JS-indexed write on the lookup array. A JS write at a negative index
creates a plain property and a write past the end grows the array; both are
modelled as no-ops here (`List.set` ignores out-of-range indices), and the
theorems below hypothesise in-range indices so that the model and the source
agree. -/
def aset (a : LookupTable) (i : ℤ) (v : Option ℚ) : LookupTable :=
  if 0 ≤ i then a.set i.toNat v else a

/-- The linear gap-fill of `prepare_curve`, run when the rounded index jumps
by more than 1: fills every skipped index between `prev` and `ind` with
`s + ((f - s) / (ind - prev)) * (j - prev)`. A `null` endpoint coerces to 0 in
JS arithmetic, hence the `Option.getD 0`. -/
def gap_fill (a : LookupTable) (prev ind : ℤ) : LookupTable :=
  let s := (aget a prev).getD 0
  let f := (aget a ind).getD 0
  (List.range (ind - prev - 1).toNat).foldl
    (fun acc k =>
      let j : ℤ := prev + 1 + (k : ℤ)
      aset acc j (some (s + (f - s) / ((ind - prev : ℤ) : ℚ) * ((j - prev : ℤ) : ℚ))))
    a

/-- One iteration of the main `prepare_curve` loop: evaluate the Bézier at
`t = i / len`, round x to an index, store y there, gap-fill on a jump, and
remember the index as `prev_ind`. When `len = 0` the JS division `0/0` is NaN
(and the iteration stores nothing); `ℚ` division gives `t = 0` instead, which
is why the totality theorem below assumes `1 ≤ len`. -/
def fwd_step (curve : CubicBezier) (len : ℕ) (st : LookupTable × ℤ) (i : ℕ) :
    LookupTable × ℤ :=
  let t : ℚ := (i : ℚ) / (len : ℚ)
  let p := point_at curve t
  let ind := js_round p.1
  let a1 := aset st.1 ind (some p.2)
  let a2 := if 1 < ind - st.2 then gap_fill a1 st.2 ind else a1
  (a2, ind)

/-- The full forward pass of `prepare_curve`: a `len + 1`-entry table of
`null`s, written by iterations `i = 0 .. len` starting from `prev_ind = 0`. -/
def forward_pass (curve : CubicBezier) (len : ℕ) : LookupTable :=
  ((List.range (len + 1)).foldl (fwd_step curve len) (List.replicate (len + 1) none, 0)).1

/-- One iteration of the backward edge-fill:
`if (lookup[i-1] === null && lookup[i] !== null) lookup[i-1] = lookup[i]`. -/
def back_step (a : LookupTable) (i : ℕ) : LookupTable :=
  match aget a (i : ℤ), aget a ((i : ℤ) - 1) with
  | some v, none => aset a ((i : ℤ) - 1) (some v)
  | _, _ => a

/-- The backward edge-fill loop: `for (i = lookup.length - 1; i; --i)`. -/
def back_pass (a : LookupTable) : ℕ → LookupTable
  | 0 => a
  | i + 1 => back_pass (back_step a (i + 1)) i

/-- The finished lookup table of `prepare_curve` for a given table size. -/
def prepare_curve_table (curve : CubicBezier) (len : ℕ) : LookupTable :=
  back_pass (forward_pass curve len) len

/-- The lookup function returned by `prepare_curve`, with the table size as an
explicit parameter: `x => lookup[Math.round(x)] ?? null`. -/
def prepare_curve_fn (curve : CubicBezier) (len : ℕ) : ℚ → Option ℚ :=
  fun x => aget (prepare_curve_table curve len) (js_round x)

/-- `prepare_curve(curve)` from `math/curve.js`. -/
noncomputable def prepare_curve (curve : CubicBezier) : ℚ → Option ℚ :=
  prepare_curve_fn curve (table_len curve)

/-- The rounded table index written by forward-pass iteration `i`. -/
def fwd_ind (curve : CubicBezier) (len : ℕ) (i : ℕ) : ℤ :=
  js_round (point_at curve ((i : ℚ) / (len : ℚ))).1

/-- `HUE_COLOR_SPACES` from `color/scale.js`. The source builds
`new Set('hcl', 'hsl', 'hsluv', 'hsv', 'jch')`; the JS `Set` constructor takes
a single iterable, so the constructed set holds exactly the characters of the
first string and the remaining four arguments are ignored. -/
def HUE_COLOR_SPACES : List String := ["h", "c", "l"]

/-- The control points handed to the curve engine for one channel by
`smooth_scale` (`color/scale.js`): `per_component_points` is built from
`color_scalars` by `zip([domains, points])`, regardless of the color space.
The hue-unwrapped `color_points` computed on lines 381-396 of the source is
never used afterwards, so it does not appear here. -/
def smooth_scale_channel_points (domains : List ℚ) (channel : List ℚ) : List Point :=
  domains.zip channel

/-- The `full_scale` branch of `get_domains` (`color/scale.js`), with the CIE
appearance lightness `to.jch(chroma(key))[0]` of each key color abstracted as
an input: `[0, ...keys.map(J => granularity * (1 - J/100)).sort(numeric), granularity]`. -/
def get_domains_full (granularity : ℚ) (lightnesses : List ℚ) : List ℚ :=
  0 :: (((lightnesses.map fun J => granularity * (1 - J / 100)).insertionSort
      (fun x y => x ≤ y)) ++ [granularity])

/-- `make_pow_scale(k, d, r)` from `color/scale.js`. The exponent is embedded
as a natural number; every call site of the library passes `shift = 1`. -/
def make_pow_scale (k : ℕ) (d0 d1 r0 r1 : ℚ) : ℚ → ℚ :=
  let m := (r1 - r0) / (d1 ^ k - d0 ^ k)
  let c := r0 - m * d0 ^ k
  fun x => m * x ^ k + c

/-- The domain pipeline of `color_scale` with the options used by
`generate_colors` (`shift = 1`, `distribute_lightness = 'linear'`,
`full_scale = true`): `get_domains` then `x => Math.max(0, power_scale(x))`
then the identity lightness distribution. -/
def scale_domains (granularity : ℚ) (lightnesses : List ℚ) : List ℚ :=
  (get_domains_full granularity lightnesses).map
    (fun x => max 0 (make_pow_scale 1 1 granularity 1 granularity x))

/-- The position → contrast memoization cache of `generate_colors`
(a JS `Map` keyed by the probed position). -/
abbrev ContrastCache := List (ℚ × ℚ)

/-- `Map.has`/`Map.get` on the contrast cache. -/
def cache_lookup (cache : ContrastCache) (i : ℚ) : Option ℚ :=
  match cache with
  | [] => none
  | (k, v) :: rest => if k = i then some v else cache_lookup rest i

/-- `contrast_at(i)` from `generate_colors` (`color/fmt.js`): return the
cached contrast at position `i` if present, otherwise compute
`contrast(to.rgb(scale(i)), bg, base_v, algorithm)` — abstracted as the pure
probe `probe i` — and cache it. -/
def contrast_at (probe : ℚ → ℚ) (cache : ContrastCache) (i : ℚ) : ℚ × ContrastCache :=
  match cache_lookup cache i with
  | some c => (c, cache)
  | none => (probe i, (i, probe i) :: cache)

/-- The `eps = 0.01` tolerance of the bisection search. -/
def search_eps : ℚ := 1 / 100

/-- The while-loop of `search` (`color/fmt.js`), with the fuel argument
playing `max_iters`: while `|c - x| > eps` and fuel remains, halve the step,
move `dot` by `(c < x ? 1 : -1) * step * dir`, and resample. -/
def search_go (probe : ℚ → ℚ) (x dir : ℚ) :
    ℕ → ℚ → ℚ → ℚ → ContrastCache → ℚ × ContrastCache
  | 0, _, dot, _, cache => (dot, cache)
  | fuel + 1, step, dot, c, cache =>
    if search_eps < |c - x| then
      let step2 := step / 2
      let dot2 := dot + (if c < x then 1 else -1) * step2 * dir
      let pr := contrast_at probe cache dot2
      search_go probe x dir fuel step2 dot2 pr.1 pr.2
    else (dot, cache)

/-- `search(ratio)` from `generate_colors`: nudge the target by
`0.005 * Math.sign(ratio)`, start at `dot = step = granularity / 2`, run the
bisection loop with `max_iters = 100`, and round the final position to 3
decimal places. -/
def search (probe : ℚ → ℚ) (dir granularity : ℚ) (cache : ContrastCache) (ratio : ℚ) :
    ℚ × ContrastCache :=
  let x := ratio + 5 / 1000 * js_sign ratio
  let step := granularity / 2
  let pr := contrast_at probe cache step
  let r := search_go probe x dir 100 step step pr.1 pr.2
  (js_round_to 3 r.1, r.2)

/-- The `ratio_values.map(pipe(search, scale))` loop of `generate_colors`,
threading the shared contrast cache left to right and returning the found
positions. -/
def generate_positions (probe : ℚ → ℚ) (dir g : ℚ) : List ℚ → ContrastCache → List ℚ
  | [], _ => []
  | r :: rs, cache =>
    let pr := search probe dir g cache r
    pr.1 :: generate_positions probe dir g rs pr.2

/-- `generate_colors` from `color/fmt.js`, over an abstract continuous scale
`scale : position → color` (built by `color_scale` with `as_fn = true`) and an
abstract contrast function `con : color → ℝ`-free signed contrast against the
fixed background (the composition of `to.rgb` and `contrast`). The direction
`dir` comes from comparing the cached probes at 0 and at `granularity`. -/
def generate_colors {α : Type} (scale : ℚ → α) (con : α → ℚ) (g : ℚ)
    (ratios : List ℚ) : List α :=
  let probe := fun i => con (scale i)
  let p1 := contrast_at probe [] 0
  let p2 := contrast_at probe p1.2 g
  let dir : ℚ := if p1.1 < p2.1 then 1 else -1
  (generate_positions probe dir g ratios p2.2).map scale

/-- The cache-free bisection loop: same control flow as `search_go` but every
sample recomputes `probe` directly. -/
def search_go_uncached (probe : ℚ → ℚ) (x dir : ℚ) : ℕ → ℚ → ℚ → ℚ → ℚ
  | 0, _, dot, _ => dot
  | fuel + 1, step, dot, c =>
    if search_eps < |c - x| then
      let step2 := step / 2
      let dot2 := dot + (if c < x then 1 else -1) * step2 * dir
      search_go_uncached probe x dir fuel step2 dot2 (probe dot2)
    else dot

/-- The cache-free `search`. -/
def search_uncached (probe : ℚ → ℚ) (dir granularity ratio : ℚ) : ℚ :=
  let x := ratio + 5 / 1000 * js_sign ratio
  let step := granularity / 2
  js_round_to 3 (search_go_uncached probe x dir 100 step step (probe step))

/-- Modelled from the spec's words, for comparison with the source: the
uncached variant of `generate_colors` that recomputes the contrast of
`scale(i)` against the background at every probe position. -/
def generate_colors_uncached {α : Type} (scale : ℚ → α) (con : α → ℚ) (g : ℚ)
    (ratios : List ℚ) : List α :=
  let probe := fun i => con (scale i)
  let dir : ℚ := if probe 0 < probe g then 1 else -1
  ratios.map (fun r => scale (search_uncached probe dir g r))

/-- Well-formedness of a contrast cache: every entry stores the probe's value
at its key. -/
def cache_ok (probe : ℚ → ℚ) (cache : ContrastCache) : Prop :=
  ∀ p ∈ cache, p.2 = probe p.1

/-! Theorems. -/

unseal Rat.add Rat.mul Rat.inv Nat.gcd in
/-- Evaluation helper: `round(1, 2) = 1`. -/
theorem js_round_to_two_one : js_round_to 2 1 = 1 := by decide

unseal Rat.add Rat.mul Rat.inv Nat.gcd in
/-- C1 counterexample: at ratio `-1` (and any multiplier, here 2) the source
returns `1`, not `-1`: `-1` fails both strict branch guards `ratio > 1` and
`ratio < -1` and falls into the neutral branch. -/
theorem multiply_contrast_ratio_at_neg_one :
    multiply_contrast_ratio (-1) 2 ≠ -1 ∧ multiply_contrast_ratio (-1) 2 = 1 := by
  decide

/-- C1 (amended): for every multiplier `m`, `multiply_contrast_ratio(1, m) = 1`
and `multiply_contrast_ratio(-1, m) = 1` (not `-1`: both boundary ratios fall
into the neutral branch), and every ratio strictly between -1 and 1 collapses
to 1. -/
theorem multiply_contrast_ratio_neutral (m : ℚ) :
    multiply_contrast_ratio 1 m = 1 ∧ multiply_contrast_ratio (-1) m = 1 ∧
      ∀ r : ℚ, -1 < r → r < 1 → multiply_contrast_ratio r m = 1 := by
  refine ⟨?_, ?_, fun r h2 h3 => ?_⟩
  · rw [multiply_contrast_ratio, if_neg (by norm_num), if_neg (by norm_num)]
    exact js_round_to_two_one
  · rw [multiply_contrast_ratio, if_neg (by norm_num), if_neg (by norm_num)]
    exact js_round_to_two_one
  · rw [multiply_contrast_ratio, if_neg (by linarith), if_neg (by linarith)]
    exact js_round_to_two_one

/-- C1 witness: the amended theorem applied at ratio 0, multiplier 2. -/
theorem multiply_contrast_ratio_neutral_witness :
    multiply_contrast_ratio 0 2 = 1 :=
  (multiply_contrast_ratio_neutral 2).2.2 0 (by norm_num) (by norm_num)

/-- C2 counterexample: the claimed threshold assignment (0 for wcag3, 1 for
wcag2) is false; at `r = 1/2` the source's `is_positive_ratio('wcag3')`
rejects although `1/2 ≥ 0`. -/
theorem min_ratio_swapped :
    ¬ ((∀ r : ℚ, is_positive_ratio .wcag3 r = true ↔ 0 ≤ r) ∧
        (∀ r : ℚ, is_positive_ratio .wcag2 r = true ↔ 1 ≤ r)) := by
  intro h
  have h3 := (h.1 (1 / 2)).mpr (by norm_num)
  simp only [is_positive_ratio, min_ratio, decide_eq_true_eq] at h3
  norm_num at h3

/-- C2 (amended): the source's `MIN_RATIO` table maps `wcag2` to 0 and `wcag3`
to 1, so `is_positive_ratio('wcag2')(r)` holds iff `r ≥ 0` and
`is_positive_ratio('wcag3')(r)` holds iff `r ≥ 1` — the opposite assignment of
the claim. -/
theorem is_positive_ratio_thresholds (r : ℚ) :
    (is_positive_ratio .wcag2 r = true ↔ 0 ≤ r) ∧
      (is_positive_ratio .wcag3 r = true ↔ 1 ≤ r) := by
  simp [is_positive_ratio, min_ratio]

unseal Rat.add Rat.mul Rat.inv Nat.gcd Rat.ofScientific in
/-- C8: the two `ratio_names` examples, computed through the embedded sort,
minimum-positive-ratio selection and naming arithmetic. -/
theorem ratio_names_examples :
    ratio_names [-1.5, -1, -0.25, 0, 1.5, 4] .wcag2
        = ["25", "50", "75", "100", "200", "300"] ∧
      ratio_names [-1.5, -1, -0.25, 0, 1.5, 4] .wcag3
        = ["20", "40", "60", "80", "100", "200"] := by
  decide

/-- C5 (code bug): the membership test guarding the hue unwrap can never
succeed — `HUE_COLOR_SPACES` holds the characters of the string it was built
from, not the space names — and the points handed to the curve engine are
built from the raw channel values, so a hue channel of `[350, 10, 350]` is fed
with a 340-degree jump between consecutive samples. -/
theorem hue_unwrap_never_fires :
    (HUE_COLOR_SPACES.contains ("hcl") = false ∧
        HUE_COLOR_SPACES.contains ("hsl") = false ∧
        HUE_COLOR_SPACES.contains ("hsluv") = false ∧
        HUE_COLOR_SPACES.contains ("hsv") = false ∧
        HUE_COLOR_SPACES.contains ("jch") = false) ∧
      smooth_scale_channel_points [0, 1500, 3000] [350, 10, 350]
          = [(0, 350), (1500, 10), (3000, 350)] ∧
      ¬ (|(10 : ℚ) - 350| ≤ 180) := by
  refine ⟨by decide, by decide, by norm_num⟩

unseal Rat.add Rat.mul Rat.inv Nat.gcd in
/-- C7 counterexample: on the concrete control points `[(0,0), (6,6), (12,0)]`
the source's segments differ from the both-ends-extrapolated construction the
claim describes: the source duplicates the first control point instead of
extrapolating at the start. -/
theorem catmull_start_phantom_not_extrapolated :
    catmull_to_bezier [(0, 0), (6, 6), (12, 0)]
      ≠ catmull_to_bezier_claimed [(0, 0), (6, 6), (12, 0)] := by
  decide

/-- C3: the structure of the bisection search. The returned position is the
3-decimal rounding of the loop result started at `dot = step = granularity/2`
on the target nudged by `0.005 * sign(ratio)`; the loop returns `dot`
unchanged as soon as the sampled contrast is within `eps = 0.01` of the
nudged target; it stops when the iteration budget (100) is exhausted; and each
iteration halves the step and moves `dot` by `(c < x ? 1 : -1) * step * dir`. -/
theorem search_bisection_structure (probe : ℚ → ℚ) (dir g ratio : ℚ)
    (cache : ContrastCache) :
    (search probe dir g cache ratio).1
        = js_round_to 3
            (search_go probe (ratio + 5 / 1000 * js_sign ratio) dir 100 (g / 2) (g / 2)
              (contrast_at probe cache (g / 2)).1 (contrast_at probe cache (g / 2)).2).1 ∧
      (∀ x step dot c cache2 fuel, |c - x| ≤ search_eps →
        (search_go probe x dir (fuel + 1) step dot c cache2).1 = dot) ∧
      (∀ x step dot c cache2, (search_go probe x dir 0 step dot c cache2).1 = dot) ∧
      (∀ x step dot c cache2 fuel, search_eps < |c - x| →
        search_go probe x dir (fuel + 1) step dot c cache2
          = search_go probe x dir fuel (step / 2)
              (dot + (if c < x then 1 else -1) * (step / 2) * dir)
              (contrast_at probe cache2
                (dot + (if c < x then 1 else -1) * (step / 2) * dir)).1
              (contrast_at probe cache2
                (dot + (if c < x then 1 else -1) * (step / 2) * dir)).2) := by
  refine ⟨rfl, ?_, fun _ _ _ _ _ => rfl, ?_⟩
  · intro x step dot c cache2 fuel h
    simp only [search_go, if_neg (not_lt.mpr h)]
  · intro x step dot c cache2 fuel h
    simp only [search_go, if_pos h]

/-- C3 witness: a loop started within tolerance of the target returns its
starting position after 0 iterations. -/
theorem search_bisection_structure_witness :
    (search_go (fun _ => (0 : ℚ)) 0 1 5 1 7 0 []).1 = 7 :=
  (search_bisection_structure (fun _ => 0) 1 0 0 []).2.1 0 1 7 0 [] 4
    (by norm_num [search_eps])

/-- Cache soundness: a successful lookup in a well-formed cache returns the
probe's value. -/
theorem cache_lookup_ok {probe : ℚ → ℚ} {cache : ContrastCache}
    (h : cache_ok probe cache) {i c : ℚ} (hl : cache_lookup cache i = some c) :
    c = probe i := by
  induction cache with
  | nil => simp [cache_lookup] at hl
  | cons p rest ih =>
    obtain ⟨k, v⟩ := p
    simp only [cache_lookup] at hl
    by_cases hk : k = i
    · rw [if_pos hk] at hl
      have hvc := Option.some.inj hl
      subst hvc
      rw [← hk]
      exact h (k, v) (List.mem_cons_self _ _)
    · rw [if_neg hk] at hl
      exact ih (fun p hp => h p (List.mem_cons_of_mem _ hp)) hl

/-- `contrast_at` is observationally the pure probe on well-formed caches. -/
theorem contrast_at_fst {probe : ℚ → ℚ} {cache : ContrastCache}
    (h : cache_ok probe cache) (i : ℚ) :
    (contrast_at probe cache i).1 = probe i := by
  unfold contrast_at
  cases hl : cache_lookup cache i with
  | none => rfl
  | some c => exact cache_lookup_ok h hl

/-- `contrast_at` preserves cache well-formedness. -/
theorem contrast_at_ok {probe : ℚ → ℚ} {cache : ContrastCache}
    (h : cache_ok probe cache) (i : ℚ) :
    cache_ok probe (contrast_at probe cache i).2 := by
  unfold contrast_at
  cases hl : cache_lookup cache i with
  | none =>
    intro p hp
    rcases List.mem_cons.mp hp with h1 | h2
    · subst h1; rfl
    · exact h p h2
  | some c => exact h

/-- The cached bisection loop computes the uncached loop's position and keeps
the cache well-formed. -/
theorem search_go_eq_uncached {probe : ℚ → ℚ} {x dir : ℚ} :
    ∀ (fuel : ℕ) (step dot c : ℚ) (cache : ContrastCache), cache_ok probe cache →
      (search_go probe x dir fuel step dot c cache).1
          = search_go_uncached probe x dir fuel step dot c ∧
        cache_ok probe (search_go probe x dir fuel step dot c cache).2 := by
  intro fuel
  induction fuel with
  | zero => exact fun step dot c cache h => ⟨rfl, h⟩
  | succ n ih =>
    intro step dot c cache h
    simp only [search_go, search_go_uncached]
    by_cases hc : search_eps < |c - x|
    · rw [if_pos hc, if_pos hc]
      rw [contrast_at_fst h]
      exact ih _ _ _ _ (contrast_at_ok h _)
    · rw [if_neg hc, if_neg hc]
      exact ⟨rfl, h⟩

/-- The cached `search` computes the uncached `search` and keeps the cache
well-formed. -/
theorem search_eq_uncached {probe : ℚ → ℚ} {dir g : ℚ} {cache : ContrastCache}
    (h : cache_ok probe cache) (ratio : ℚ) :
    (search probe dir g cache ratio).1 = search_uncached probe dir g ratio ∧
      cache_ok probe (search probe dir g cache ratio).2 := by
  simp only [search, search_uncached]
  constructor
  · rw [contrast_at_fst h]
    exact congrArg (js_round_to 3)
      (search_go_eq_uncached 100 _ _ _ _ (contrast_at_ok h _)).1
  · exact (search_go_eq_uncached 100 _ _ _ _ (contrast_at_ok h _)).2

/-- The position loop of `generate_colors` computes the uncached positions. -/
theorem generate_positions_eq_uncached {probe : ℚ → ℚ} {dir g : ℚ} :
    ∀ (ratios : List ℚ) (cache : ContrastCache), cache_ok probe cache →
      generate_positions probe dir g ratios cache
        = ratios.map (fun r => search_uncached probe dir g r) := by
  intro ratios
  induction ratios with
  | nil => exact fun cache h => rfl
  | cons r rs ih =>
    intro cache h
    simp only [generate_positions, List.map_cons]
    rw [(search_eq_uncached h r).1, ih _ (search_eq_uncached h r).2]

/-- C10: the contrast cache of `generate_colors` is observationally
transparent — the cached pipeline returns exactly the colors of the uncached
variant that recomputes the contrast of `scale(i)` at every probe. -/
theorem generate_colors_cache_transparent {α : Type} (scale : ℚ → α) (con : α → ℚ)
    (g : ℚ) (ratios : List ℚ) :
    generate_colors scale con g ratios = generate_colors_uncached scale con g ratios := by
  simp only [generate_colors, generate_colors_uncached]
  have h0 : cache_ok (fun i => con (scale i)) [] := by
    intro p hp
    simp at hp
  rw [contrast_at_fst h0, contrast_at_fst (contrast_at_ok h0 0)]
  rw [generate_positions_eq_uncached _ _ (contrast_at_ok (contrast_at_ok h0 0) g)]
  rw [List.map_map]
  rfl

/-- With `shift = 1` (the value used at every call site) and a granularity
other than 1, the power scale of `color_scale` is the identity. -/
theorem make_pow_scale_one {g : ℚ} (hg : g ≠ 1) (x : ℚ) :
    make_pow_scale 1 1 g 1 g x = x := by
  simp only [make_pow_scale, pow_one]
  rw [div_self (sub_ne_zero.mpr hg)]
  ring

/-- Bounds on the elements of the full-scale domain list. -/
theorem get_domains_full_bounds {g : ℚ} {Js : List ℚ} (hg0 : 0 ≤ g)
    (hJ : ∀ J ∈ Js, 0 ≤ J ∧ J ≤ 100) :
    ∀ x ∈ get_domains_full g Js, 0 ≤ x ∧ x ≤ g := by
  intro x hx
  simp only [get_domains_full, List.mem_cons, List.mem_append,
    List.mem_singleton, List.not_mem_nil, or_false] at hx
  rcases hx with rfl | hx
  · exact ⟨le_refl 0, hg0⟩
  rcases hx with hx | rfl
  · have hx2 : x ∈ Js.map fun J => g * (1 - J / 100) :=
      (List.perm_insertionSort _ _).mem_iff.mp hx
    obtain ⟨J, hJm, rfl⟩ := List.mem_map.mp hx2
    obtain ⟨h0, h100⟩ := hJ J hJm
    constructor
    · exact mul_nonneg hg0 (by linarith)
    · calc g * (1 - J / 100) ≤ g * 1 := mul_le_mul_of_nonneg_left (by linarith) hg0
        _ = g := mul_one g
  · exact ⟨hg0, le_refl x⟩

/-- C6: under `full_scale = true`, for every nonnegative granularity above 1
and CIE-appearance lightness values in `[0, 100]`, the domain positions after
sorting and the remapping steps form a non-decreasing sequence starting at
exactly 0 and ending at exactly `granularity`. -/
theorem scale_domains_monotone (g : ℚ) (Js : List ℚ) (hg : 1 < g)
    (hJ : ∀ J ∈ Js, 0 ≤ J ∧ J ≤ 100) :
    (scale_domains g Js).Chain' (fun x y => x ≤ y) ∧
      (scale_domains g Js).head? = some 0 ∧
      (scale_domains g Js).getLast? = some g := by
  have hg0 : (0 : ℚ) ≤ g := by linarith
  have hmem := get_domains_full_bounds hg0 hJ
  have heq : scale_domains g Js = get_domains_full g Js := by
    unfold scale_domains
    have hcg : (get_domains_full g Js).map
          (fun x => max 0 (make_pow_scale 1 1 g 1 g x))
        = (get_domains_full g Js).map id :=
      List.map_congr_left fun x hx => by
        rw [make_pow_scale_one (ne_of_gt hg)]
        exact max_eq_right (hmem x hx).1
    rw [hcg, List.map_id]
  rw [heq]
  have hsorted : List.Sorted (fun x y => x ≤ y)
      ((Js.map fun J => g * (1 - J / 100)).insertionSort (fun x y => x ≤ y)) :=
    List.sorted_insertionSort _ _
  refine ⟨?_, rfl, ?_⟩
  · apply List.Pairwise.chain'
    rw [get_domains_full, List.pairwise_cons]
    constructor
    · intro b hb
      exact (hmem b (List.mem_cons_of_mem _ hb)).1
    · rw [List.pairwise_append]
      refine ⟨hsorted, List.pairwise_singleton _ _, ?_⟩
      intro a ha b hb
      rw [List.mem_singleton] at hb
      subst hb
      exact (hmem a (List.mem_cons_of_mem _ (List.mem_append_left _ ha))).2
  · rw [get_domains_full, ← List.cons_append, List.getLast?_concat]

/-- C6 witness: granularity 3000 with a single key color of lightness 50. -/
theorem scale_domains_monotone_witness :
    (scale_domains 3000 [50]).Chain' (fun x y => x ≤ y) ∧
      (scale_domains 3000 [50]).head? = some 0 ∧
      (scale_domains 3000 [50]).getLast? = some 3000 :=
  scale_domains_monotone 3000 [50] (by norm_num)
    (by intro J hJ; rw [List.mem_singleton] at hJ; subst hJ; norm_num)

/-- Length of the windowed Catmull-Rom conversion. -/
theorem catmull_from_padded_length (q : List Point) :
    (catmull_from_padded q).length = q.length - 3 := by
  simp [catmull_from_padded]

/-- The end phantom in positional terms: for at least two control points it is
`2 * last - second_last`. -/
theorem end_extrapolation_getD :
    ∀ (l : List Point), 2 ≤ l.length →
      end_extrapolation l
        = padd [l.getD (l.length - 1) (0, 0), l.getD (l.length - 1) (0, 0),
            pneg (l.getD (l.length - 2) (0, 0))]
  | [], h => by simp at h
  | [_], h => by simp at h
  | [a, b], _ => by simp [end_extrapolation]
  | a :: b :: c :: rest, _ => by
    have ih := end_extrapolation_getD (b :: c :: rest) (by simp)
    have h1 : (a :: b :: c :: rest).length - 1 = ((b :: c :: rest).length - 1) + 1 := by
      simp
    have h2 : (a :: b :: c :: rest).length - 2 = ((b :: c :: rest).length - 2) + 1 := by
      simp
    calc end_extrapolation (a :: b :: c :: rest) = end_extrapolation (b :: c :: rest) := rfl
      _ = _ := by rw [ih, h1, h2, List.getD_cons_succ, List.getD_cons_succ]

/-- Reading the padded list one past the start point reads the original. -/
theorem pad_getD_succ (x e : Point) (l : List Point) (j : ℕ) (hj : j < l.length) :
    (x :: (l ++ [e])).getD (j + 1) (0, 0) = l.getD j (0, 0) := by
  rw [List.getD_cons_succ, List.getD_append _ _ _ _ hj]

/-- Reading the padded list at its final index reads the end phantom. -/
theorem pad_getD_last (x e : Point) (l : List Point) :
    (x :: (l ++ [e])).getD (l.length + 1) (0, 0) = e := by
  rw [List.getD_cons_succ, List.getD_append_right _ _ _ _ (le_refl _)]
  simp

/-- C7 (amended): for n ≥ 2 control points, `catmull_to_bezier` returns
exactly n - 1 segments, and they are precisely the Catmull-Rom windows over
the control points padded with the DUPLICATED first point at the start
(`v1 = cps[0]`, a clamped phantom, not an extrapolated one) and the linearly
extrapolated phantom `2 * last - second_last` at the end. -/
theorem catmull_to_bezier_windows (p q : Point) (rest : List Point) :
    (catmull_to_bezier (p :: q :: rest)).length = (p :: q :: rest).length - 1 ∧
      catmull_to_bezier (p :: q :: rest)
        = catmull_from_padded
            (p :: ((p :: q :: rest) ++ [end_extrapolation (p :: q :: rest)])) := by
  have hlen : (p :: q :: rest).length = rest.length + 2 := by simp
  have hn2 : 2 ≤ (p :: q :: rest).length := by simp
  constructor
  · simp [catmull_to_bezier]
  · simp only [catmull_to_bezier, catmull_from_padded]
    have hpad : (p :: ((p :: q :: rest) ++ [end_extrapolation (p :: q :: rest)])).length - 3
        = (p :: q :: rest).length - 1 := by
      simp
    rw [hpad]
    apply List.map_congr_left
    intro i hi
    rw [List.mem_range] at hi
    simp only [if_pos hi]
    have h2 : (p :: ((p :: q :: rest) ++ [end_extrapolation (p :: q :: rest)])).getD
        (i + 1) (0, 0) = (p :: q :: rest).getD i (0, 0) :=
      pad_getD_succ _ _ _ _ (by omega)
    have h3 : (p :: ((p :: q :: rest) ++ [end_extrapolation (p :: q :: rest)])).getD
        (i + 2) (0, 0) = (p :: q :: rest).getD (i + 1) (0, 0) := by
      rw [show i + 2 = (i + 1) + 1 from rfl]
      exact pad_getD_succ _ _ _ _ (by omega)
    have h1 : (p :: ((p :: q :: rest) ++ [end_extrapolation (p :: q :: rest)])).getD
        i (0, 0) = (p :: q :: rest).getD (i - 1) (0, 0) := by
      cases i with
      | zero => rfl
      | succ j =>
        rw [pad_getD_succ _ _ _ _ (by omega)]
        rw [show j + 1 - 1 = j from rfl]
    by_cases hin : i < (p :: q :: rest).length - 2
    · rw [if_pos hin]
      have h4 : (p :: ((p :: q :: rest) ++ [end_extrapolation (p :: q :: rest)])).getD
          (i + 3) (0, 0) = (p :: q :: rest).getD (i + 2) (0, 0) := by
        rw [show i + 3 = (i + 2) + 1 from rfl]
        exact pad_getD_succ _ _ _ _ (by omega)
      rw [h1, h2, h3, h4]
    · rw [if_neg hin]
      have h4 : (p :: ((p :: q :: rest) ++ [end_extrapolation (p :: q :: rest)])).getD
          (i + 3) (0, 0)
          = padd [(p :: q :: rest).getD (i + 1) (0, 0),
              (p :: q :: rest).getD (i + 1) (0, 0),
              pneg ((p :: q :: rest).getD i (0, 0))] := by
        rw [show i + 3 = (p :: q :: rest).length + 1 by omega]
        rw [pad_getD_last]
        rw [end_extrapolation_getD _ hn2]
        rw [show (p :: q :: rest).length - 1 = i + 1 by omega,
          show (p :: q :: rest).length - 2 = i by omega]
      rw [h1, h2, h3, h4]

/-- Writing never changes the table size. -/
theorem aset_length (a : LookupTable) (i : ℤ) (v : Option ℚ) :
    (aset a i v).length = a.length := by
  unfold aset
  split <;> simp

/-- An in-range write is read back. -/
theorem aget_aset_some {a : LookupTable} {i : ℤ} (h0 : 0 ≤ i)
    (hlt : i.toNat < a.length) (v : ℚ) :
    aget (aset a i (some v)) i = some v := by
  unfold aget aset
  rw [if_pos h0, if_pos h0, List.getD_eq_getElem?_getD, List.getElem?_set_self hlt]
  rfl

/-- Writing a non-null value never clears an entry. -/
theorem aget_isSome_of_aset {a : LookupTable} {i j : ℤ} {v : ℚ}
    (h : (aget a j).isSome) : (aget (aset a i (some v)) j).isSome := by
  unfold aset
  unfold aget at h ⊢
  by_cases h0i : 0 ≤ i
  · rw [if_pos h0i]
    by_cases h0j : 0 ≤ j
    · rw [if_pos h0j] at h ⊢
      rw [List.getD_eq_getElem?_getD] at h ⊢
      rw [List.getElem?_set]
      by_cases hij : i.toNat = j.toNat
      · rw [if_pos hij]
        by_cases hlt : i.toNat < a.length
        · rw [if_pos hlt]; simp
        · exfalso
          rw [← hij, List.getElem?_eq_none (le_of_not_lt hlt)] at h
          simp at h
      · rw [if_neg hij]; exact h
    · rw [if_neg h0j] at h
      simp at h
  · rw [if_neg h0i]; exact h

/-- A left fold of entry-preserving steps preserves entries. -/
theorem foldl_isSome_mono {β : Type} (g : LookupTable → β → LookupTable)
    (hg : ∀ acc b j, (aget acc j).isSome → (aget (g acc b) j).isSome) :
    ∀ (l : List β) (a : LookupTable) (j : ℤ),
      (aget a j).isSome → (aget (l.foldl g a) j).isSome := by
  intro l
  induction l with
  | nil => exact fun a j h => h
  | cons b bs ih => exact fun a j h => ih _ _ (hg a b j h)

/-- A left fold of size-preserving steps preserves the size. -/
theorem foldl_length_pres {β : Type} (g : LookupTable → β → LookupTable)
    (hg : ∀ acc b, (g acc b).length = acc.length) :
    ∀ (l : List β) (a : LookupTable), (l.foldl g a).length = a.length := by
  intro l
  induction l with
  | nil => exact fun a => rfl
  | cons b bs ih => exact fun a => (ih _).trans (hg a b)

/-- The gap fill never clears an entry. -/
theorem gap_fill_isSome_mono {a : LookupTable} {prev ind j : ℤ}
    (h : (aget a j).isSome) : (aget (gap_fill a prev ind) j).isSome := by
  unfold gap_fill
  exact foldl_isSome_mono _ (fun acc b k hk => aget_isSome_of_aset hk) _ _ _ h

/-- The gap fill preserves the table size. -/
theorem gap_fill_length (a : LookupTable) (prev ind : ℤ) :
    (gap_fill a prev ind).length = a.length := by
  unfold gap_fill
  exact foldl_length_pres _ (fun acc b => aset_length _ _ _) _ _

/-- A forward-pass iteration never clears an entry. -/
theorem fwd_step_isSome_mono {curve : CubicBezier} {len : ℕ}
    {st : LookupTable × ℤ} {i : ℕ} {j : ℤ} (h : (aget st.1 j).isSome) :
    (aget (fwd_step curve len st i).1 j).isSome := by
  simp only [fwd_step]
  split
  · exact gap_fill_isSome_mono (aget_isSome_of_aset h)
  · exact aget_isSome_of_aset h

/-- A forward-pass iteration preserves the table size. -/
theorem fwd_step_length (curve : CubicBezier) (len : ℕ) (st : LookupTable × ℤ)
    (i : ℕ) : (fwd_step curve len st i).1.length = st.1.length := by
  simp only [fwd_step]
  split
  · rw [gap_fill_length, aset_length]
  · rw [aset_length]

/-- A forward-pass iteration records a value at its own rounded index when
that index lies within the table. -/
theorem fwd_step_writes {curve : CubicBezier} {len : ℕ} {st : LookupTable × ℤ}
    {i : ℕ} (h0 : 0 ≤ fwd_ind curve len i)
    (hlt : (fwd_ind curve len i).toNat < st.1.length) :
    (aget (fwd_step curve len st i).1 (fwd_ind curve len i)).isSome := by
  simp only [fwd_ind] at h0 hlt
  simp only [fwd_step, fwd_ind]
  split
  · exact gap_fill_isSome_mono (by rw [aget_aset_some h0 hlt]; rfl)
  · rw [aget_aset_some h0 hlt]
    rfl

/-- The forward fold preserves the table size. -/
theorem fold_fwd_length (curve : CubicBezier) (len : ℕ) :
    ∀ (l : List ℕ) (st : LookupTable × ℤ),
      (l.foldl (fwd_step curve len) st).1.length = st.1.length := by
  intro l
  induction l with
  | nil => exact fun st => rfl
  | cons b bs ih =>
    intro st
    rw [List.foldl_cons, ih, fwd_step_length]

/-- The forward fold never clears an entry. -/
theorem fold_fwd_isSome_mono (curve : CubicBezier) (len : ℕ) :
    ∀ (l : List ℕ) (st : LookupTable × ℤ) (j : ℤ),
      (aget st.1 j).isSome → (aget (l.foldl (fwd_step curve len) st).1 j).isSome := by
  intro l
  induction l with
  | nil => exact fun st j h => h
  | cons b bs ih => exact fun st j h => ih _ _ (fwd_step_isSome_mono h)

/-- The full forward pass yields a `len + 1`-entry table. -/
theorem forward_pass_length (curve : CubicBezier) (len : ℕ) :
    (forward_pass curve len).length = len + 1 := by
  unfold forward_pass
  rw [fold_fwd_length]
  simp

/-- If iteration `i` of the forward pass rounds to an in-range index, the
finished forward table holds a value there. -/
theorem forward_pass_isSome (curve : CubicBezier) (len : ℕ) (i : ℕ)
    (hi : i < len + 1) (h0 : 0 ≤ fwd_ind curve len i)
    (hlt : (fwd_ind curve len i).toNat < len + 1) :
    (aget (forward_pass curve len) (fwd_ind curve len i)).isSome := by
  unfold forward_pass
  have hsplit : List.range (len + 1)
      = (List.range i ++ [i]) ++ (List.range (len - i)).map ((i + 1) + ·) := by
    rw [← List.range_succ, ← List.range_add]
    congr 1
    omega
  rw [hsplit, List.foldl_append, List.foldl_append]
  apply fold_fwd_isSome_mono
  rw [List.foldl_cons, List.foldl_nil]
  apply fwd_step_writes h0
  rw [fold_fwd_length]
  simpa using hlt

/-- A backward-pass iteration never clears an entry. -/
theorem back_step_isSome_mono {a : LookupTable} {i : ℕ} {j : ℤ}
    (h : (aget a j).isSome) : (aget (back_step a i) j).isSome := by
  unfold back_step
  split
  · exact aget_isSome_of_aset h
  · exact h

/-- A backward-pass iteration preserves the table size. -/
theorem back_step_length (a : LookupTable) (i : ℕ) :
    (back_step a i).length = a.length := by
  unfold back_step
  split
  · rw [aset_length]
  · rfl

/-- The backward pass never clears an entry. -/
theorem back_pass_isSome_mono :
    ∀ (n : ℕ) (a : LookupTable) (j : ℤ),
      (aget a j).isSome → (aget (back_pass a n) j).isSome := by
  intro n
  induction n with
  | zero => exact fun a j h => h
  | succ m ih => exact fun a j h => ih _ _ (back_step_isSome_mono h)

/-- The backward pass preserves the table size. -/
theorem back_pass_length :
    ∀ (n : ℕ) (a : LookupTable), (back_pass a n).length = a.length := by
  intro n
  induction n with
  | zero => exact fun a => rfl
  | succ m ih => exact fun a => (ih _).trans (back_step_length _ _)

/-- Edge-fill correctness: every index at or below a filled index is filled
after the backward pass reaches down to it. -/
theorem back_pass_fill :
    ∀ (n : ℕ) (a : LookupTable) (m : ℕ), m ≤ n → m < a.length →
      (aget a (m : ℤ)).isSome →
      ∀ j : ℕ, j ≤ m → (aget (back_pass a n) (j : ℤ)).isSome := by
  intro n
  induction n with
  | zero =>
    intro a m hm _ h j hj
    have hj0 : j = 0 := by omega
    have hm0 : m = 0 := by omega
    subst hj0
    subst hm0
    exact h
  | succ n ih =>
    intro a m hmn hmlen h j hj
    rw [back_pass]
    by_cases hm : m ≤ n
    · exact ih _ m hm (by rw [back_step_length]; exact hmlen)
        (back_step_isSome_mono h) j hj
    · have hm1 : m = n + 1 := by omega
      subst hm1
      by_cases hj1 : j ≤ n
      · have hstep : (aget (back_step a (n + 1)) ((n : ℕ) : ℤ)).isSome := by
          obtain ⟨v, hv⟩ := Option.isSome_iff_exists.mp h
          unfold back_step
          have hcast : (((n + 1 : ℕ) : ℤ) - 1) = ((n : ℕ) : ℤ) := by push_cast; ring
          rw [hcast, hv]
          cases hn : aget a ((n : ℕ) : ℤ) with
          | some w => simp [hn]
          | none =>
            have hget : aget (aset a ((n : ℕ) : ℤ) (some v)) ((n : ℕ) : ℤ) = some v := by
              apply aget_aset_some (Int.natCast_nonneg n)
              rw [Int.toNat_natCast]
              omega
            simp [hget]
        exact ih _ n le_rfl (by rw [back_step_length]; omega) hstep j hj1
      · have hj2 : j = n + 1 := by omega
        subst hj2
        exact back_pass_isSome_mono n _ _ (back_step_isSome_mono h)

/-- Rounding an integer-valued query position is the identity. -/
theorem js_round_natCast (x : ℕ) : js_round ((x : ℕ) : ℚ) = (x : ℤ) := by
  unfold js_round
  rw [Int.floor_eq_iff]
  constructor
  · push_cast
    linarith
  · push_cast
    linarith

/-- C4 (amended): totality of the `prepare_curve` lookup holds under the
reachability condition the source's monotone-in-x usage provides: when every
rounded forward-pass index stays inside the table (ruling out the JS
array-growth and negative-property cases the model does not reproduce) and
some iteration reaches the table's last index, the returned lookup yields a
defined (non-null) value at every integer x in `[0, table_length - 1]`.
Without the reachability condition totality fails (see the counterexample):
indices beyond the largest reached index keep their `null`. -/
theorem prepare_curve_totality (curve : CubicBezier)
    (hlen1 : 1 ≤ table_len curve)
    (hin : ∀ i ≤ table_len curve,
      0 ≤ fwd_ind curve (table_len curve) i ∧
        fwd_ind curve (table_len curve) i ≤ (table_len curve : ℤ))
    (hlast : ∃ i ≤ table_len curve,
      fwd_ind curve (table_len curve) i = (table_len curve : ℤ)) :
    ∀ x : ℕ, x ≤ table_len curve → prepare_curve curve ((x : ℕ) : ℚ) ≠ none := by
  intro x hx
  obtain ⟨i, hi, hieq⟩ := hlast
  have h1 : (aget (forward_pass curve (table_len curve))
      ((table_len curve : ℕ) : ℤ)).isSome := by
    have hfw := forward_pass_isSome curve (table_len curve) i (by omega)
      (by rw [hieq]; positivity)
      (by rw [hieq, Int.toNat_natCast]; omega)
    rw [hieq] at hfw
    exact hfw
  have h2 : (aget (prepare_curve_table curve (table_len curve)) ((x : ℕ) : ℤ)).isSome := by
    unfold prepare_curve_table
    exact back_pass_fill (table_len curve) _ (table_len curve) le_rfl
      (by rw [forward_pass_length]; omega) h1 x hx
  unfold prepare_curve prepare_curve_fn
  rw [js_round_natCast]
  exact Option.isSome_iff_ne_none.mp h2

/-- The arc-length estimate of the vertical test curve is exactly 6. -/
theorem vertical_curve_len :
    approximate_bezier_len ((1, 0), (1, 2), (1, 4), (1, 6)) 10 = 6 := by
  have hsam : bezier_samples ((1, 0), (1, 2), (1, 4), (1, 6)) 10
      = [(1, 0), (1, 3/5), (1, 6/5), (1, 9/5), (1, 12/5), (1, 3), (1, 18/5),
          (1, 21/5), (1, 24/5), (1, 27/5), (1, 6)] := by
    norm_num [bezier_samples, point_at, padd, pmul, List.range_succ]
  unfold approximate_bezier_len
  rw [hsam]
  simp only [polyline_len, point_dist]
  push_cast
  norm_num
  have h9 : Real.sqrt 9 = 3 := by
    rw [show (9 : ℝ) = 3 ^ 2 by norm_num]
    exact Real.sqrt_sq (by norm_num)
  have h25 : Real.sqrt 25 = 5 := by
    rw [show (25 : ℝ) = 5 ^ 2 by norm_num]
    exact Real.sqrt_sq (by norm_num)
  rw [h9, h25]
  norm_num

/-- The table size of the vertical test curve is 4. -/
theorem vertical_curve_table_len :
    table_len ((1, 0), (1, 2), (1, 4), (1, 6)) = 4 := by
  unfold table_len
  rw [vertical_curve_len]
  rw [show (6 : ℝ) * (3 / 4) = 9 / 2 by norm_num]
  rw [Nat.floor_eq_iff (by norm_num)]
  norm_num

/-- The finished lookup table of the vertical test curve: only indices 0 and 1
are filled; 2, 3, 4 keep their `null`. -/
theorem vertical_curve_table :
    prepare_curve_table ((1, 0), (1, 2), (1, 4), (1, 6)) 4
      = [some 6, some 6, none, none, none] := by
  have e0 : fwd_step ((1, 0), (1, 2), (1, 4), (1, 6)) 4 (List.replicate 5 none, 0) 0
      = ([none, some 0, none, none, none], 1) := by
    norm_num [fwd_step, point_at, padd, pmul, js_round, aset, gap_fill, aget]
    decide
  have e1 : fwd_step ((1, 0), (1, 2), (1, 4), (1, 6)) 4 ([none, some 0, none, none, none], 1) 1
      = ([none, some (3/2), none, none, none], 1) := by
    norm_num [fwd_step, point_at, padd, pmul, js_round, aset, gap_fill, aget]
  have e2 : fwd_step ((1, 0), (1, 2), (1, 4), (1, 6)) 4 ([none, some (3/2), none, none, none], 1) 2
      = ([none, some 3, none, none, none], 1) := by
    norm_num [fwd_step, point_at, padd, pmul, js_round, aset, gap_fill, aget]
  have e3 : fwd_step ((1, 0), (1, 2), (1, 4), (1, 6)) 4 ([none, some 3, none, none, none], 1) 3
      = ([none, some (9/2), none, none, none], 1) := by
    norm_num [fwd_step, point_at, padd, pmul, js_round, aset, gap_fill, aget]
  have e4 : fwd_step ((1, 0), (1, 2), (1, 4), (1, 6)) 4 ([none, some (9/2), none, none, none], 1) 4
      = ([none, some 6, none, none, none], 1) := by
    norm_num [fwd_step, point_at, padd, pmul, js_round, aset, gap_fill, aget]
  have hf : forward_pass ((1, 0), (1, 2), (1, 4), (1, 6)) 4
      = [none, some 6, none, none, none] := by
    unfold forward_pass
    rw [show List.range (4 + 1) = [0, 1, 2, 3, 4] from rfl]
    rw [show (List.replicate 5 (none : Option ℚ), (0 : ℤ))
        = (List.replicate 5 none, 0) from rfl]
    simp only [List.foldl_cons, List.foldl_nil, e0, e1, e2, e3, e4]
  unfold prepare_curve_table
  rw [hf]
  decide

/-- C4 counterexample: for the vertical curve `[(1,0), (1,2), (1,4), (1,6)]`
the table has length `table_len + 1 = 5`, yet the returned lookup is `null`
at the in-range integer position 2: the curve's rounded x-positions never
reach past index 1, and the backward pass only copies values downward. -/
theorem prepare_curve_gap_counterexample :
    table_len ((1, 0), (1, 2), (1, 4), (1, 6)) = 4 ∧
      prepare_curve ((1, 0), (1, 2), (1, 4), (1, 6)) 2 = none := by
  refine ⟨vertical_curve_table_len, ?_⟩
  unfold prepare_curve prepare_curve_fn
  rw [vertical_curve_table_len, vertical_curve_table]
  norm_num [js_round, aget]
  decide

/-- The arc-length estimate of the straight test line from (0,0) to (3,4) is
exactly 5 (ten polyline segments of length 1/2 each). -/
theorem line_curve_len :
    approximate_bezier_len ((0, 0), (1, 4/3), (2, 8/3), (3, 4)) 10 = 5 := by
  have hsam : bezier_samples ((0, 0), (1, 4/3), (2, 8/3), (3, 4)) 10
      = [(0, 0), (3/10, 2/5), (3/5, 4/5), (9/10, 6/5), (6/5, 8/5), (3/2, 2),
          (9/5, 12/5), (21/10, 14/5), (12/5, 16/5), (27/10, 18/5), (3, 4)] := by
    norm_num [bezier_samples, point_at, padd, pmul, List.range_succ]
  unfold approximate_bezier_len
  rw [hsam]
  simp only [polyline_len, point_dist]
  push_cast
  norm_num
  have h4 : Real.sqrt 4 = 2 := by
    rw [show (4 : ℝ) = 2 ^ 2 by norm_num]
    exact Real.sqrt_sq (by norm_num)
  rw [h4]
  norm_num

/-- The table size of the straight test line is 3. -/
theorem line_curve_table_len :
    table_len ((0, 0), (1, 4/3), (2, 8/3), (3, 4)) = 3 := by
  unfold table_len
  rw [line_curve_len]
  rw [show (5 : ℝ) * (3 / 4) = 15 / 4 by norm_num]
  rw [Nat.floor_eq_iff (by norm_num)]
  norm_num

/-- C4 witness: the straight line from (0,0) to (3,4) rounds its forward-pass
positions to 0, 1, 2, 3 = table_len, so the totality theorem applies; position
2 is defined. -/
theorem prepare_curve_totality_witness :
    prepare_curve ((0, 0), (1, 4/3), (2, 8/3), (3, 4)) ((2 : ℕ) : ℚ) ≠ none := by
  have hlen := line_curve_table_len
  apply prepare_curve_totality ((0, 0), (1, 4/3), (2, 8/3), (3, 4))
  · rw [hlen]
    norm_num
  · intro i hi
    rw [hlen] at hi ⊢
    interval_cases i <;>
      norm_num [fwd_ind, point_at, padd, pmul, js_round]
  · rw [hlen]
    refine ⟨3, le_rfl, ?_⟩
    norm_num [fwd_ind, point_at, padd, pmul, js_round]
  · rw [hlen]
    norm_num
